import Mathlib

/-!
Verification of the pocketflow-throttled rate limiting library against its
specification.

Shallow embedding of the core of the `pocketflow_throttled` Python package
(`rate_limiter.py`, `nodes.py`, `flows.py`) together with proofs and
refutations of the frozen specification claims.

Modelling conventions:
* Python `float` time and factor values are modelled as exact rationals `ℚ`.
  Every concrete factor appearing in a claim (0.5, 2.0, 3.0, 1.2) has the
  property that the Python float computation `int(c * f)` agrees with the
  exact rational computation at the integers involved, so the rational model
  is faithful at all inputs used in theorems and counterexamples.
* Python `int(x)` truncates toward zero; it is modelled by `pyInt`.
* Monotonic clock reads are inputs of the embedded functions; `asyncio.sleep(s)`
  suspends for at least `s` seconds, modelled by a nonnegative extra delay.
* Fallible constructors are modelled with `Except String`.
* `asyncio.gather` is modelled with an explicit completion schedule `σ` (the
  order in which tasks finish), so order-independence of results is a theorem
  quantified over schedules rather than an accident of the model.
-/

section ThrottledDevelopment

attribute [local semireducible] Rat.add Rat.mul Rat.sub Rat.inv Rat.ofScientific

/-- Python `int()` applied to a float/rational: truncation toward zero.
For a rational in lowest terms with positive denominator, truncation of the
real value is truncating integer division of numerator by denominator. -/
def pyInt (q : ℚ) : ℤ := Int.tdiv q.num q.den

/-!
Adaptive controller: `AdaptiveThrottledNode` in `nodes.py`, mirrored by
`AdaptiveThrottledBatchFlow` in `flows.py`.

Configuration fields correspond to `min_concurrent`, `max_concurrent`,
`backoff_factor`, `recovery_factor`, `recovery_threshold`; state fields to
`_current_concurrent`, `_consecutive_successes`, `_total_rate_limits`,
`_total_successes`, and the capacity and identity of the installed limiter
(`_limiter`; the flow variant resets the limiter to be lazily rebuilt with
the same capacity, which is modelled the same way).
-/

structure AdaptiveCfg where
  minC : ℤ
  maxC : ℤ
  backoff : ℚ
  recovery : ℚ
  threshold : ℕ
deriving DecidableEq, Repr

structure AdaptiveState where
  current : ℤ
  consecutive : ℕ
  totalRateLimits : ℕ
  totalSuccesses : ℕ
  limiterCap : ℤ
  limiterSwaps : ℕ
deriving DecidableEq, Repr

/-- Initial adaptive state for a given `initial_concurrent`
(`AdaptiveThrottledNode.__init__`, nodes.py lines 274-278). -/
def adaptiveInit (initial : ℤ) : AdaptiveState :=
  { current := initial
    consecutive := 0
    totalRateLimits := 0
    totalSuccesses := 0
    limiterCap := initial
    limiterSwaps := 0 }

/-- Embedding of `AdaptiveThrottledNode._on_rate_limit` (nodes.py lines
301-323): `current = max(min_concurrent, int(current * backoff_factor))`,
reset the consecutive-success counter, bump the rate-limit counter, and
recreate the limiter with the new capacity when the level changed. -/
def onRateLimit (cfg : AdaptiveCfg) (s : AdaptiveState) : AdaptiveState :=
  let old := s.current
  let c := max cfg.minC (pyInt ((old : ℚ) * cfg.backoff))
  { current := c
    consecutive := 0
    totalRateLimits := s.totalRateLimits + 1
    totalSuccesses := s.totalSuccesses
    limiterCap := if c ≠ old then c else s.limiterCap
    limiterSwaps := if c ≠ old then s.limiterSwaps + 1 else s.limiterSwaps }

/-- Embedding of `AdaptiveThrottledNode._on_success` (nodes.py lines 325-351):
bump the success counters; once `recovery_threshold` consecutive successes
accumulate, `current = min(max_concurrent, int(current * recovery_factor))`,
reset the counter, and recreate the limiter when the level changed. -/
def onSuccess (cfg : AdaptiveCfg) (s : AdaptiveState) : AdaptiveState :=
  let cs := s.consecutive + 1
  let ts := s.totalSuccesses + 1
  if cfg.threshold ≤ cs then
    let old := s.current
    let c := min cfg.maxC (pyInt ((old : ℚ) * cfg.recovery))
    { current := c
      consecutive := 0
      totalRateLimits := s.totalRateLimits
      totalSuccesses := ts
      limiterCap := if c ≠ old then c else s.limiterCap
      limiterSwaps := if c ≠ old then s.limiterSwaps + 1 else s.limiterSwaps }
  else
    { s with consecutive := cs, totalSuccesses := ts }

/-- An observed event fed to the adaptive controller. -/
inductive AdaptiveEvent where
  | success
  | rateLimit
deriving DecidableEq, Repr

def adaptiveStep (cfg : AdaptiveCfg) (s : AdaptiveState) : AdaptiveEvent → AdaptiveState
  | .success => onSuccess cfg s
  | .rateLimit => onRateLimit cfg s

def adaptiveRun (cfg : AdaptiveCfg) (s : AdaptiveState) (evs : List AdaptiveEvent) :
    AdaptiveState :=
  evs.foldl (adaptiveStep cfg) s

/-!
Concurrency gate of `RateLimiter` (rate_limiter.py lines 92-144).

Method `acquire()` first awaits `self._semaphore.acquire()` (line 104), then
runs the sliding-window section (lines 107-126) and returns; `release()`
(line 135) increments the semaphore.  The scoped form `async with limiter`
releases on every exit path of the protected block, but `acquire` itself
contains no try/finally: if the task is cancelled inside the window section
(in particular at the `await asyncio.sleep(...)` on line 119) the exception
propagates out of `acquire` without any `self._semaphore.release()` call.

The life of one task against the semaphore is therefore one of:
* `acq`: `_semaphore.acquire()` returns (requires an available permit);
* then either `fin` (the window section completes and `acquire` returns,
  the task is now inside the limiter scope) or `can` (CancelledError in the
  window section: the permit is neither held by a scope nor returned);
* `rel`: a task inside the scope calls `release()`.
-/

inductive LEvent where
  | acq
  | fin
  | can
  | rel
deriving DecidableEq, Repr

structure LSt where
  avail : ℕ
  pending : ℕ
  inside : ℕ
  leaked : ℕ
deriving DecidableEq, Repr

/-- One scheduler step of the semaphore protocol; `none` means the event
cannot fire in this state (e.g. an `acq` with no available permit blocks
rather than proceeding). -/
def lstep (s : LSt) : LEvent → Option LSt
  | .acq =>
    if s.avail = 0 then none
    else some { s with avail := s.avail - 1, pending := s.pending + 1 }
  | .fin =>
    if s.pending = 0 then none
    else some { s with pending := s.pending - 1, inside := s.inside + 1 }
  | .can =>
    if s.pending = 0 then none
    else some { s with pending := s.pending - 1, leaked := s.leaked + 1 }
  | .rel =>
    if s.inside = 0 then none
    else some { s with inside := s.inside - 1, avail := s.avail + 1 }

def lrun (s : LSt) : List LEvent → Option LSt
  | [] => some s
  | e :: evs =>
    match lstep s e with
    | none => none
    | some s' => lrun s' evs

/-- Initial state of a limiter with `max_concurrent = M`
(`asyncio.Semaphore(max_concurrent)`, rate_limiter.py line 67). -/
def linit (M : ℕ) : LSt := ⟨M, 0, 0, 0⟩

/-!
Batch executors.

`ThrottledParallelBatchNode._exec` (nodes.py lines 132-149) maps every item
through `_throttled_exec` and awaits `asyncio.gather(*tasks)` with the
default `return_exceptions=False`; an empty batch short-circuits to `[]`.
`ThrottledAsyncParallelBatchFlow._run_async` (flows.py lines 157-188) gathers
`run_throttled(bp)` for every parameter bundle with
`return_exceptions=True`, so exceptions become slot values.

The per-item work (`super()._exec(item)` with its retry loop, or
`self._orch_async(...)` for a flow instance) is opaque to the executor and is
modelled as a function into `Except ε β`.  `asyncio.gather` allocates one
result slot per task and fills each task's own slot when that task
completes; the completion order is an explicit schedule `σ` (a list of task
indexes).  `gather` returns once every slot has been filled.
-/

/-- Result slots of `asyncio.gather`: slot `j` is written with task `j`'s
outcome when `j` occurs in the completion schedule; `none` is a slot whose
task has not completed yet. -/
def gatherFill {α : Type} (outs : List α) (σ : List ℕ) : List (Option α) :=
  σ.foldl (fun acc j => acc.set j (outs[j]?)) (List.replicate outs.length none)

/-- Exception raised by task `j`, if any. -/
def taskError {ε α : Type} (outs : List (Except ε α)) (j : ℕ) : Option ε :=
  match outs[j]? with
  | some (Except.error e) => some e
  | _ => none

/-- First exception in completion order, if any task raised. -/
def firstError {ε α : Type} (outs : List (Except ε α)) (σ : List ℕ) : Option ε :=
  σ.findSome? (taskError outs)

/-- Embedding of `asyncio.gather(*tasks)` with `return_exceptions=False`: the
first task in completion order that raised propagates its exception;
otherwise all results are collected in task order. -/
def gatherExc {ε α : Type} (outs : List (Except ε α)) (σ : List ℕ) :
    Except ε (List α) :=
  match firstError outs σ with
  | some e => Except.error e
  | none => Except.ok (outs.filterMap Except.toOption)

/-- Embedding of `ThrottledParallelBatchNode._exec` (nodes.py lines 132-149):
empty batch returns `[]`; otherwise gather (without `return_exceptions`) over
the per-item outcomes. -/
def nodeExec {α β ε : Type} (f : α → Except ε β) (items : List α)
    (σ : List ℕ) : Except ε (List β) :=
  if items.isEmpty then Except.ok []
  else gatherExc (items.map f) σ

/-- Embedding of `ThrottledAsyncParallelBatchFlow._run_async` (flows.py lines
157-188): gather with `return_exceptions=True` over the per-bundle outcomes,
i.e. each slot receives its own bundle's value or exception carrier and the
call itself never raises because of an item failure. -/
def flowRunAsync {π ρ ε : Type} (orch : π → Except ε ρ) (bundles : List π)
    (σ : List ℕ) : List (Option (Except ε ρ)) :=
  gatherFill (bundles.map orch) σ

/-!
Constructors and validation.
-/

/-- Condition of the second check in `RateLimiter.__init__`
(rate_limiter.py line 58): `max_per_window is not None and max_per_window < 1`. -/
def maxPerWindowInvalid : Option ℤ → Bool
  | none => false
  | some n => decide (n < 1)

/-- Embedding of `RateLimiter.__init__` (rate_limiter.py lines 50-69): the
three `ValueError` checks run synchronously, then the configuration is
stored. -/
def rateLimiterInit (mc : ℤ) (mpw : Option ℤ) (ws : ℚ) :
    Except String (ℤ × Option ℤ × ℚ) :=
  if mc < 1 then Except.error "max_concurrent must be at least 1"
  else if maxPerWindowInvalid mpw then
    Except.error "max_per_window must be at least 1 or None"
  else if ws ≤ 0 then Except.error "window_seconds must be positive"
  else Except.ok (mc, mpw, ws)

/-- Embedding of `AdaptiveThrottledNode.__init__` (nodes.py lines 225-278):
the constructor stores the adaptive configuration and counters and performs
no validation whatsoever; the parent constructor also constructs no
`RateLimiter` (the `limiter` property is lazy, nodes.py lines 96-110), so no
check on the caps runs at construction either. -/
def adaptiveNodeInit (initial minc maxc : ℤ) (backoff recovery : ℚ)
    (threshold : ℕ) : Except String (AdaptiveCfg × AdaptiveState) :=
  Except.ok (⟨minc, maxc, backoff, recovery, threshold⟩, adaptiveInit initial)

/-!
Scoped acquisition versus limiter replacement
(`AdaptiveThrottledNode._throttled_exec`, nodes.py lines 353-369, and
`RateLimiter.__aenter__`/`__aexit__`, rate_limiter.py lines 137-144).

Python's `async with self.limiter:` evaluates `self.limiter` once, binds the
resulting object, and calls `__aenter__` and later `__aexit__` on that same
object, even if `self._limiter` has meanwhile been replaced by
`_on_rate_limit`/`_on_success`.  The heap of limiter instances is modelled
as parallel lists of capacities and outstanding-permit counts indexed by
creation order; `cur` is the index the `self._limiter` attribute points at.
-/

structure ScopedHeap where
  caps : List ℕ
  outstanding : List ℕ
  cur : ℕ
deriving DecidableEq, Repr

/-- Entering `async with self.limiter`: the currently installed limiter is
read once, a permit is taken from it, and its index is captured by the
scoped acquisition. -/
def scopedEnter (h : ScopedHeap) : ScopedHeap × ℕ :=
  ({ h with outstanding := h.outstanding.set h.cur (h.outstanding.getD h.cur 0 + 1) },
   h.cur)

/-- Replacement of the limiter by the adaptive controller:
`self._limiter = RateLimiter(max_concurrent=new_cap, ...)` creates a fresh
instance and repoints the attribute at it. -/
def swapLimiter (h : ScopedHeap) (cap : ℕ) : ScopedHeap :=
  { caps := h.caps ++ [cap]
    outstanding := h.outstanding ++ [0]
    cur := h.caps.length }

/-- Exiting the scope: `__aexit__` calls `release()` on the object bound at
entry, identified by the captured index. -/
def scopedExit (h : ScopedHeap) (bound : ℕ) : ScopedHeap :=
  { h with outstanding := h.outstanding.set bound (h.outstanding.getD bound 0 - 1) }

/-!
Sliding-window section of `RateLimiter.acquire`
(rate_limiter.py lines 106-126).

The code holds `self._lock` for the whole section, including the sleep, so
concurrent acquirers execute their window sections one after another; a
sequential trace is therefore an exact model of any interleaving.  The
monotonic clock is an input: `now` is the read on line 109; if the window is
full the code sleeps `st = window - (now - oldest) + 0.001` seconds, which
takes at least `st` (the extra scheduling delay is `d2 ≥ 0`), re-reads the
clock (line 121, modelled as `now + st + d2`) and re-evicts; the appended
timestamp (line 126) is one more fresh read, `d3 ≥ 0` later.
-/

/-- Sleep slack constant of rate_limiter.py line 117 (`+ 0.001`). -/
def eps : ℚ := 1/1000

/-- Eviction loop (rate_limiter.py lines 112-113 and 122-123): pop from the
left while the oldest timestamp is strictly older than the window. -/
def evict (W now : ℚ) (ts : List ℚ) : List ℚ :=
  ts.dropWhile (fun t => decide (W < now - t))

/-- One execution of the sliding-window section with `max_per_window = N`,
`window_seconds = W`, pending deque `dq`, first clock read `now`, sleep slack
`d2` and append-read delay `d3`.  Returns the new deque and the timestamp
appended on line 126 (which is also the instant `acquire` returns). -/
def acquireWindow (N : ℕ) (W : ℚ) (dq : List ℚ) (now d2 d3 : ℚ) :
    List ℚ × ℚ :=
  let ts1 := evict W now dq
  if N ≤ ts1.length then
    let st := W - (now - ts1.head!) + eps
    if 0 < st then
      let wake := now + st + d2
      let ts2 := evict W wake ts1
      let ret := wake + d3
      (ts2 ++ [ret], ret)
    else
      let ret := now + d3
      (ts1 ++ [ret], ret)
  else
    let ret := now + d3
    (ts1 ++ [ret], ret)

/-- Sequential trace of acquisitions: each entry `(a, d2, d3)` gives the gap
`a ≥ 0` between the previous return and this call's first clock read and the
two scheduling delays.  `hist` accumulates every appended timestamp, i.e.
the completion instant of every `acquire` so far; `dq` is the live deque and
`t` the current clock value. -/
def runAcquires (N : ℕ) (W : ℚ) (hist dq : List ℚ) (t : ℚ) :
    List (ℚ × ℚ × ℚ) → List ℚ × List ℚ × ℚ
  | [] => (hist, dq, t)
  | c :: rest =>
    let now := t + c.1
    let r := acquireWindow N W dq now c.2.1 c.2.2
    runAcquires N W (hist ++ [r.2]) r.1 r.2 rest

/-- Number of timestamps of `l` lying within the trailing window of length
`W` at instant `t` (the count `current_window_count` uses,
rate_limiter.py line 90). -/
def countWindow (t W : ℚ) (l : List ℚ) : ℕ :=
  (l.filter (fun x => decide (t - x ≤ W))).length

/-- All gaps and delays of a trace are nonnegative (clocks are monotonic and
sleeps cannot end early). -/
def delaysNonneg (l : List (ℚ × ℚ × ℚ)) : Prop :=
  ∀ c ∈ l, 0 ≤ c.1 ∧ 0 ≤ c.2.1 ∧ 0 ≤ c.2.2

/-- Invariant tied to the sliding-window state: the deque is sorted, bounded
by the clock, holds at most `N` entries, and the history splits into a
prefix of expired timestamps followed by exactly the deque. -/
structure WinInv (N : ℕ) (W : ℚ) (hist dq : List ℚ) (t : ℚ) : Prop where
  sorted : dq.Chain' (· ≤ ·)
  bounded : ∀ x ∈ dq, x ≤ t
  len_le : dq.length ≤ N
  split : ∃ pre, hist = pre ++ dq ∧ ∀ x ∈ pre, W < t - x

/-!
Theorems.
-/

theorem pyInt_of_nonneg {q : ℚ} (h : 0 ≤ q) : pyInt q = ⌊q⌋ := by
  unfold pyInt
  rw [Int.tdiv_eq_ediv (Rat.num_nonneg.mpr h) (Int.ofNat_nonneg q.den), Rat.floor_def]

theorem pyInt_intCast (n : ℤ) : pyInt (n : ℚ) = n := by
  unfold pyInt
  rw [Rat.intCast_num, Rat.intCast_den]
  exact Int.tdiv_one n

/-- Truncation of a product `c * f` is at most `c` when `c ≥ 0` and `f ≤ 1`. -/
theorem pyInt_mul_le_self {c : ℤ} {f : ℚ} (hc : 0 ≤ c) (hf0 : 0 ≤ f) (hf1 : f ≤ 1) :
    pyInt ((c : ℚ) * f) ≤ c := by
  have hcq : (0 : ℚ) ≤ (c : ℚ) := by exact_mod_cast hc
  have hprod : (0 : ℚ) ≤ (c : ℚ) * f := mul_nonneg hcq hf0
  rw [pyInt_of_nonneg hprod]
  calc ⌊(c : ℚ) * f⌋ ≤ ⌊((c : ℤ) : ℚ)⌋ := by
        apply Int.floor_le_floor
        calc (c : ℚ) * f ≤ (c : ℚ) * 1 := by
              exact mul_le_mul_of_nonneg_left hf1 hcq
          _ = (c : ℚ) := by ring
    _ = c := Int.floor_intCast c

/-- Truncation of a product `c * f` is at least `c` when `c ≥ 0` and `f ≥ 1`. -/
theorem le_pyInt_mul {c : ℤ} {f : ℚ} (hc : 0 ≤ c) (hf : 1 ≤ f) :
    c ≤ pyInt ((c : ℚ) * f) := by
  have hcq : (0 : ℚ) ≤ (c : ℚ) := by exact_mod_cast hc
  have hprod : (0 : ℚ) ≤ (c : ℚ) * f :=
    mul_nonneg hcq (le_trans zero_le_one hf)
  rw [pyInt_of_nonneg hprod]
  calc c = ⌊((c : ℤ) : ℚ)⌋ := (Int.floor_intCast c).symm
    _ ≤ ⌊(c : ℚ) * f⌋ := by
        apply Int.floor_le_floor
        calc (c : ℚ) = (c : ℚ) * 1 := by ring
          _ ≤ (c : ℚ) * f := mul_le_mul_of_nonneg_left hf hcq

/-- C5: with `(initial=10, min=2, max=50, backoff_factor=0.5,
recovery_threshold=5, recovery_factor=2.0)`, each `on_rate_limit` sets
`current = max(min, ⌊current·backoff⌋)`, zeroes `consecutive_successes`,
bumps `total_rate_limits`, and swaps in a new limiter when the level changed;
three consecutive rate-limit events leave `current = 2` and five subsequent
successes leave `current = 4`.  The intermediate states are computed exactly:
10 → 5 → 2 → 2 under backoff (two limiter swaps, three rate limits recorded),
then the fifth success triggers recovery to 4 with a third swap. -/
theorem claim_C5_adaptive_trace :
    let cfg : AdaptiveCfg := ⟨2, 50, 1/2, 2, 5⟩
    let s0 := adaptiveInit 10
    let s3 := adaptiveRun cfg s0 [.rateLimit, .rateLimit, .rateLimit]
    let s8 := adaptiveRun cfg s3 [.success, .success, .success, .success, .success]
    s3.current = 2 ∧ s3.consecutive = 0 ∧ s3.totalRateLimits = 3 ∧
    s3.limiterCap = 2 ∧ s3.limiterSwaps = 2 ∧
    (onRateLimit cfg s0).current = 5 ∧ (onRateLimit cfg s0).consecutive = 0 ∧
    (onRateLimit cfg s0).totalRateLimits = 1 ∧ (onRateLimit cfg s0).limiterCap = 5 ∧
    s8.current = 4 ∧ s8.consecutive = 0 ∧ s8.totalSuccesses = 5 ∧
    s8.limiterCap = 4 ∧ s8.limiterSwaps = 3 := by
  decide

theorem onRateLimit_current (cfg : AdaptiveCfg) (s : AdaptiveState) :
    (onRateLimit cfg s).current =
      max cfg.minC (pyInt ((s.current : ℚ) * cfg.backoff)) := by
  simp [onRateLimit]

theorem onSuccess_current (cfg : AdaptiveCfg) (s : AdaptiveState) :
    (onSuccess cfg s).current =
      if cfg.threshold ≤ s.consecutive + 1
      then min cfg.maxC (pyInt ((s.current : ℚ) * cfg.recovery))
      else s.current := by
  by_cases h : cfg.threshold ≤ s.consecutive + 1 <;> simp [onSuccess, h]

/-- Backoff keeps `current` within `[minC, maxC]` provided the bounds are
consistent and nonnegative and the backoff factor lies in `[0, 1]`. -/
theorem onRateLimit_bounds {cfg : AdaptiveCfg} {s : AdaptiveState}
    (hmin0 : 0 ≤ cfg.minC) (hminmax : cfg.minC ≤ cfg.maxC)
    (hb0 : 0 ≤ cfg.backoff) (hb1 : cfg.backoff ≤ 1)
    (hlo : cfg.minC ≤ s.current) (hhi : s.current ≤ cfg.maxC) :
    cfg.minC ≤ (onRateLimit cfg s).current ∧ (onRateLimit cfg s).current ≤ cfg.maxC := by
  rw [onRateLimit_current]
  constructor
  · exact le_max_left _ _
  · apply max_le hminmax
    exact le_trans (pyInt_mul_le_self (le_trans hmin0 hlo) hb0 hb1) hhi

/-- Recovery keeps `current` within `[minC, maxC]` provided the bounds are
consistent and nonnegative and the recovery factor is at least 1. -/
theorem onSuccess_bounds {cfg : AdaptiveCfg} {s : AdaptiveState}
    (hmin0 : 0 ≤ cfg.minC) (hminmax : cfg.minC ≤ cfg.maxC)
    (hr : 1 ≤ cfg.recovery)
    (hlo : cfg.minC ≤ s.current) (hhi : s.current ≤ cfg.maxC) :
    cfg.minC ≤ (onSuccess cfg s).current ∧ (onSuccess cfg s).current ≤ cfg.maxC := by
  rw [onSuccess_current]
  by_cases h : cfg.threshold ≤ s.consecutive + 1
  · rw [if_pos h]
    constructor
    · exact le_min hminmax
        (le_trans hlo (le_pyInt_mul (le_trans hmin0 hlo) hr))
    · exact min_le_left _ _
  · rw [if_neg h]
    exact ⟨hlo, hhi⟩

/-- C6 counterexample: the claim hypothesis `min ≤ initial ≤ max` is not
enough.  The constructor accepts `backoff_factor = 3.0` without validation
(nodes.py lines 225-278 perform no checks), and then one rate-limit event
drives `current` from 10 to `max(1, int(10 * 3.0)) = 30`, violating
`current ≤ max = 20`. -/
theorem claim_C6_counterexample :
    let cfg : AdaptiveCfg := ⟨1, 20, 3, 6/5, 10⟩
    let s0 := adaptiveInit 10
    (cfg.minC ≤ s0.current ∧ s0.current ≤ cfg.maxC) ∧
    (onRateLimit cfg s0).current = 30 ∧
    ¬ ((onRateLimit cfg s0).current ≤ cfg.maxC) := by
  decide

/-- C6 (amended): for every configuration with `0 ≤ min ≤ initial ≤ max`,
`0 ≤ backoff_factor ≤ 1` and `recovery_factor ≥ 1` (the ranges the spec's
data model prescribes for these factors), every sequence of `on_success` and
`on_rate_limit` events keeps `min ≤ current ≤ max`. -/
theorem claim_C6_min_max_invariant (cfg : AdaptiveCfg) (s : AdaptiveState)
    (evs : List AdaptiveEvent)
    (hmin0 : 0 ≤ cfg.minC) (hminmax : cfg.minC ≤ cfg.maxC)
    (hb0 : 0 ≤ cfg.backoff) (hb1 : cfg.backoff ≤ 1) (hr : 1 ≤ cfg.recovery)
    (hlo : cfg.minC ≤ s.current) (hhi : s.current ≤ cfg.maxC) :
    cfg.minC ≤ (adaptiveRun cfg s evs).current ∧
    (adaptiveRun cfg s evs).current ≤ cfg.maxC := by
  induction evs generalizing s with
  | nil => exact ⟨hlo, hhi⟩
  | cons e evs ih =>
    have hstep : cfg.minC ≤ (adaptiveStep cfg s e).current ∧
        (adaptiveStep cfg s e).current ≤ cfg.maxC := by
      cases e with
      | success => exact onSuccess_bounds hmin0 hminmax hr hlo hhi
      | rateLimit => exact onRateLimit_bounds hmin0 hminmax hb0 hb1 hlo hhi
    exact ih (adaptiveStep cfg s e) hstep.1 hstep.2

/-- Witness for the amended C6 invariant at a concrete configuration. -/
theorem claim_C6_min_max_invariant_witness :
    let cfg : AdaptiveCfg := ⟨1, 20, 1/2, 6/5, 2⟩
    let s0 := adaptiveInit 10
    let evs : List AdaptiveEvent := [.rateLimit, .success, .success, .rateLimit]
    cfg.minC ≤ (adaptiveRun cfg s0 evs).current ∧
    (adaptiveRun cfg s0 evs).current ≤ cfg.maxC :=
  claim_C6_min_max_invariant ⟨1, 20, 1/2, 6/5, 2⟩ (adaptiveInit 10)
    [.rateLimit, .success, .success, .rateLimit]
    (by decide) (by decide) (by decide) (by decide) (by decide)
    (by decide) (by decide)

/-- C10: the recovery path computes `int(current * recovery_factor)`, so any
state with `int(current * recovery_factor) = current` (and `current ≤ max`)
is a fixed point of recovery: no number of consecutive successes ever changes
`current`.  With the default `recovery_factor = 1.2` every `current ≤ 4` is
such a fixed point (the Python float computation `int(c * 1.2)` agrees with
the exact value at `c = 0, 1, 2, 3, 4`). -/
theorem claim_C10_recovery_fixed_point :
    (∀ c : ℤ, 0 ≤ c → c ≤ 4 → pyInt ((c : ℚ) * (6/5)) = c) ∧
    ∀ (cfg : AdaptiveCfg) (s : AdaptiveState) (n : ℕ),
      pyInt ((s.current : ℚ) * cfg.recovery) = s.current →
      s.current ≤ cfg.maxC →
      (adaptiveRun cfg s (List.replicate n .success)).current = s.current := by
  constructor
  · intro c h0 h4
    interval_cases c <;> decide
  · intro cfg s n hfix hle
    induction n generalizing s with
    | zero => rfl
    | succ n ih =>
      rw [List.replicate_succ]
      show (adaptiveRun cfg (adaptiveStep cfg s .success) (List.replicate n .success)).current
          = s.current
      have hcur : (onSuccess cfg s).current = s.current := by
        rw [onSuccess_current]
        by_cases h : cfg.threshold ≤ s.consecutive + 1
        · rw [if_pos h, hfix]
          exact min_eq_right hle
        · rw [if_neg h]
      have h1 := ih (onSuccess cfg s) (by rw [hcur]; exact hfix) (by rw [hcur]; exact hle)
      calc (adaptiveRun cfg (adaptiveStep cfg s .success) (List.replicate n .success)).current
          = s.current := by rw [show adaptiveStep cfg s .success = onSuccess cfg s from rfl]
                            rw [h1, hcur]

/-- Witness for C10 at `current = 3`, `recovery_factor = 1.2`: twelve
consecutive successes leave the level at 3. -/
theorem claim_C10_recovery_fixed_point_witness :
    pyInt (((3 : ℤ) : ℚ) * (6/5)) = 3 ∧
    (adaptiveRun ⟨1, 20, 1/2, 6/5, 2⟩ (adaptiveInit 3)
      (List.replicate 12 .success)).current = 3 :=
  ⟨claim_C10_recovery_fixed_point.1 3 (by decide) (by decide),
   claim_C10_recovery_fixed_point.2 ⟨1, 20, 1/2, 6/5, 2⟩ (adaptiveInit 3) 12
     (by decide) (by decide)⟩

theorem lstep_sum {s s' : LSt} {e : LEvent} (h : lstep s e = some s') :
    s'.avail + s'.pending + s'.inside + s'.leaked
      = s.avail + s.pending + s.inside + s.leaked := by
  cases e <;> simp only [lstep] at h <;> split at h <;> cases h <;> simp <;> omega

theorem lrun_sum {s s' : LSt} {evs : List LEvent} (h : lrun s evs = some s') :
    s'.avail + s'.pending + s'.inside + s'.leaked
      = s.avail + s.pending + s.inside + s.leaked := by
  induction evs generalizing s with
  | nil => cases h; rfl
  | cons e evs ih =>
    simp only [lrun] at h
    cases he : lstep s e with
    | none => rw [he] at h; cases h
    | some s1 =>
      rw [he] at h
      exact (ih h).trans (lstep_sum he)

/-- C2: for every `max_concurrent = M` and every schedule of acquisitions,
window completions, cancellations and releases that the semaphore protocol
admits, the number of tasks inside the limiter scope (returned from
`acquire()` and not yet past `release()`) never exceeds `M`. -/
theorem claim_C2_concurrency_bound (M : ℕ) (evs : List LEvent) (s : LSt)
    (h : lrun (linit M) evs = some s) : s.inside ≤ M := by
  have hsum := lrun_sum h
  simp only [linit] at hsum
  omega

/-- Witness for C2: a concrete schedule with `M = 2`, two tasks in flight,
one released, a third entering. -/
theorem claim_C2_concurrency_bound_witness :
    lrun (linit 2) [.acq, .fin, .acq, .fin, .rel, .acq, .fin] = some ⟨0, 0, 2, 0⟩ ∧
    (⟨0, 0, 2, 0⟩ : LSt).inside ≤ 2 :=
  ⟨by decide, claim_C2_concurrency_bound 2 [.acq, .fin, .acq, .fin, .rel, .acq, .fin]
    ⟨0, 0, 2, 0⟩ (by decide)⟩

/-- C3 is a bug in the code: `acquire` (rate_limiter.py lines 92-126) has no
try/finally around the sliding-window section, so a task cancelled during the
window sleep (line 119) exits `acquire` holding the semaphore permit and
never releases it.  Concretely, with `max_concurrent = 1, max_per_window = 1`:
task A acquires and releases; task B acquires the semaphore, sleeps on the
full window, and is cancelled — afterwards no permit is available
(`avail = 0`, not the initial 1), the slot is leaked, and it stays leaked
under every continuation of the schedule, so the claim that "the semaphore
permit is released" fails. -/
theorem claim_C3_cancellation_leaks_permit :
    lrun (linit 1) [.acq, .fin, .rel, .acq, .can] = some ⟨0, 0, 0, 1⟩ ∧
    (⟨0, 0, 0, 1⟩ : LSt).avail = 0 ∧ (linit 1).avail = 1 ∧
    ∀ evs s, lrun (⟨0, 0, 0, 1⟩ : LSt) evs = some s → s.avail = 0 := by
  refine ⟨by decide, rfl, rfl, ?_⟩
  intro evs s h
  have hsum := lrun_sum h
  have hM : s.avail + s.pending + s.inside + s.leaked = 1 := by
    simpa using hsum
  have hleak : 1 ≤ s.leaked := by
    clear hsum hM
    generalize hs0 : (⟨0, 0, 0, 1⟩ : LSt) = s0 at h
    have hmono : s0.leaked ≤ s.leaked := by
      clear hs0
      induction evs generalizing s0 with
      | nil => cases h; exact le_refl _
      | cons e evs ih =>
        simp only [lrun] at h
        cases he : lstep s0 e with
        | none => rw [he] at h; cases h
        | some s1 =>
          rw [he] at h
          have h01 : s0.leaked ≤ s1.leaked := by
            cases e <;> simp only [lstep] at he <;> split at he <;> cases he <;> simp
          exact le_trans h01 (ih s1 h)
    rw [← hs0] at hmono
    exact hmono
  omega

/-- C7 counterexample: constructing the adaptive executor with inverted
bounds `min_concurrent = 10 > 2 = max_concurrent`, out-of-range
`backoff_factor = 3.0` and out-of-range `recovery_factor = 0.5` raises no
error at construction — `AdaptiveThrottledNode.__init__` validates nothing,
so the claimed synchronous configuration error does not exist for these
arguments. -/
theorem claim_C7_counterexample :
    (adaptiveNodeInit 5 10 2 3 (1/2) 5).isOk = true ∧
    ¬ ((10 : ℤ) ≤ 2) ∧ ¬ ((3 : ℚ) ≤ 1) ∧ ¬ (1 ≤ (1/2 : ℚ)) := by
  refine ⟨rfl, by decide, by decide, by decide⟩

/-- C7 (amended): the `RateLimiter` constructor alone validates its
arguments synchronously, rejecting exactly non-positive `max_concurrent`,
`max_per_window < 1` when set, and non-positive `window_seconds`; the
adaptive executor's min/max bounds and factors are not validated anywhere. -/
theorem claim_C7_ratelimiter_validation (mc : ℤ) (mpw : Option ℤ) (ws : ℚ) :
    (rateLimiterInit mc mpw ws).isOk = false ↔
      (mc < 1 ∨ (∃ n, mpw = some n ∧ n < 1) ∨ ws ≤ 0) := by
  unfold rateLimiterInit
  split_ifs with h1 h2 h3
  · exact ⟨fun _ => Or.inl h1, fun _ => rfl⟩
  · refine ⟨fun _ => Or.inr (Or.inl ?_), fun _ => rfl⟩
    cases mpw with
    | none => simp [maxPerWindowInvalid] at h2
    | some n =>
      refine ⟨n, rfl, ?_⟩
      simpa [maxPerWindowInvalid] using h2
  · exact ⟨fun _ => Or.inr (Or.inr h3), fun _ => rfl⟩
  · constructor
    · intro hcontra
      simp [Except.isOk, Except.toBool] at hcontra
    · intro hbad
      rcases hbad with hbad | ⟨n, rfl, hn⟩ | hbad
      · exact absurd hbad h1
      · exact absurd (by simp [maxPerWindowInvalid, hn]) h2
      · exact absurd hbad h3

theorem foldSwap_outstanding (caps : List ℕ) (h : ScopedHeap) :
    (caps.foldl swapLimiter h).outstanding
      = h.outstanding ++ List.replicate caps.length 0 := by
  induction caps generalizing h with
  | nil => simp
  | cons c cs ih =>
    rw [List.foldl_cons, ih]
    simp [swapLimiter, List.replicate_succ]

theorem foldSwap_caps_length (caps : List ℕ) (h : ScopedHeap) :
    (caps.foldl swapLimiter h).caps.length = h.caps.length + caps.length := by
  induction caps generalizing h with
  | nil => simp
  | cons c cs ih =>
    rw [List.foldl_cons, ih]
    simp [swapLimiter]
    omega

theorem foldSwap_cur_ge (caps : List ℕ) (h : ScopedHeap) (hne : caps ≠ []) :
    h.caps.length ≤ (caps.foldl swapLimiter h).cur := by
  induction caps generalizing h with
  | nil => cases hne rfl
  | cons c cs ih =>
    rw [List.foldl_cons]
    by_cases hcs : cs = []
    · subst hcs
      simp [swapLimiter]
    · calc h.caps.length ≤ h.caps.length + 1 := Nat.le_succ _
        _ = (swapLimiter h c).caps.length := by simp [swapLimiter]
        _ ≤ _ := ih (swapLimiter h c) hcs

/-- C8: a scoped acquisition captures the limiter instance it acquired from
(`async with self.limiter` evaluates the property once and calls
`__aexit__` on that same object); after any number of limiter replacements
by the adaptive controller, the exit releases exactly the captured (old)
instance — its outstanding count returns to the pre-acquire value — and no
other instance, in particular not the newly installed one, is touched by
the release. -/
theorem claim_C8_release_routes_to_bound_limiter (h0 : ScopedHeap)
    (caps : List ℕ)
    (hcur : h0.cur < h0.outstanding.length)
    (hlen : h0.caps.length = h0.outstanding.length) :
    let e := scopedEnter h0
    let h2 := caps.foldl swapLimiter e.1
    let h3 := scopedExit h2 e.2
    h3.outstanding.getD e.2 0 = h0.outstanding.getD e.2 0 ∧
    (∀ j, j ≠ e.2 → h3.outstanding.getD j 0 = h2.outstanding.getD j 0) ∧
    (caps ≠ [] → h2.cur ≠ e.2) := by
  intro e h2 h3
  have hb : e.2 = h0.cur := rfl
  have hout1 : e.1.outstanding
      = h0.outstanding.set h0.cur (h0.outstanding.getD h0.cur 0 + 1) := rfl
  have hlen1 : e.1.outstanding.length = h0.outstanding.length := by
    rw [hout1, List.length_set]
  have hfold : h2.outstanding = e.1.outstanding ++ List.replicate caps.length 0 :=
    foldSwap_outstanding caps e.1
  have hget2 : h2.outstanding.getD h0.cur 0 = h0.outstanding.getD h0.cur 0 + 1 := by
    rw [hfold, List.getD_eq_getElem?_getD, List.getElem?_append_left (by omega),
      hout1, List.getElem?_set_self hcur]
    rw [List.getD_eq_getElem?_getD]
    rfl
  have hlen2 : h0.cur < h2.outstanding.length := by
    rw [hfold, List.length_append, hlen1]
    omega
  refine ⟨?_, ?_, ?_⟩
  · show (h2.outstanding.set h0.cur (h2.outstanding.getD h0.cur 0 - 1)).getD h0.cur 0
        = h0.outstanding.getD h0.cur 0
    rw [List.getD_eq_getElem?_getD, List.getElem?_set_self hlen2, hget2]
    rfl
  · intro j hj
    show (h2.outstanding.set h0.cur (h2.outstanding.getD h0.cur 0 - 1)).getD j 0
        = h2.outstanding.getD j 0
    rw [List.getD_eq_getElem?_getD, List.getElem?_set_ne (fun hc => hj (hb ▸ hc.symm)),
      List.getD_eq_getElem?_getD]
  · intro hne
    have hge : e.1.caps.length ≤ h2.cur := foldSwap_cur_ge caps e.1 hne
    have hgec : h0.outstanding.length ≤ h2.cur := by
      have hcaps1 : e.1.caps = h0.caps := rfl
      rw [hcaps1, hlen] at hge
      exact hge
    rw [hb]
    omega

theorem foldl_fill_length {α : Type} (outs : List α) (σ : List ℕ)
    (acc : List (Option α)) :
    (σ.foldl (fun a j => a.set j (outs[j]?)) acc).length = acc.length := by
  induction σ generalizing acc with
  | nil => rfl
  | cons j σ ih =>
    rw [List.foldl_cons, ih]
    exact List.length_set ..

theorem foldl_fill_getElem? {α : Type} (outs : List α) (σ : List ℕ)
    (acc : List (Option α)) (i : ℕ) (hacc : acc.length = outs.length) :
    (σ.foldl (fun a j => a.set j (outs[j]?)) acc)[i]? =
      if i ∈ σ ∧ i < outs.length then some (outs[i]?) else acc[i]? := by
  induction σ generalizing acc with
  | nil => simp
  | cons j σ ih =>
    rw [List.foldl_cons, ih _ (by rw [List.length_set]; exact hacc)]
    by_cases h1 : i ∈ σ ∧ i < outs.length
    · rw [if_pos h1, if_pos ⟨List.mem_cons_of_mem _ h1.1, h1.2⟩]
    · rw [if_neg h1]
      by_cases hij : j = i
      · subst hij
        by_cases hi : j < outs.length
        · rw [if_pos ⟨List.mem_cons_self .., hi⟩,
            List.getElem?_set_self (by rw [hacc]; exact hi)]
        · rw [if_neg (fun hc => hi hc.2), List.getElem?_set, if_pos rfl,
            if_neg (by rw [hacc]; exact hi)]
          exact (List.getElem?_eq_none (by rw [hacc]; exact Nat.le_of_not_lt hi)).symm
      · have hmemc : ¬ (i ∈ j :: σ ∧ i < outs.length) := by
          intro hc
          rcases List.mem_cons.mp hc.1 with he | he
          · exact hij he.symm
          · exact h1 ⟨he, hc.2⟩
        rw [if_neg hmemc, List.getElem?_set_ne hij]

theorem gatherFill_length {α : Type} (outs : List α) (σ : List ℕ) :
    (gatherFill outs σ).length = outs.length := by
  unfold gatherFill
  rw [foldl_fill_length]
  exact List.length_replicate ..

theorem gatherFill_getElem? {α : Type} (outs : List α) (σ : List ℕ) (i : ℕ)
    (hmem : i ∈ σ) (hi : i < outs.length) :
    (gatherFill outs σ)[i]? = some (outs[i]?) := by
  unfold gatherFill
  rw [foldl_fill_getElem? _ _ _ _ (List.length_replicate ..), if_pos ⟨hmem, hi⟩]

/-- C4 (amended): the flow-level batch executor
(`ThrottledAsyncParallelBatchFlow._run_async`, which gathers with
`return_exceptions=True`) surfaces a failing flow instance as a structured
exception carrier in that instance's own result slot, lets the other
instances run to completion, and itself returns the slot array rather than
raising — for every completion schedule covering all tasks.  The node-level
executor does not have this property (see the counterexample). -/
theorem claim_C4_flow_failure_isolation {π ρ ε : Type} (orch : π → Except ε ρ)
    (bundles : List π) (σ : List ℕ)
    (hcov : ∀ i, i < bundles.length → i ∈ σ) :
    (flowRunAsync orch bundles σ).length = bundles.length ∧
    ∀ i (hi : i < bundles.length),
      (flowRunAsync orch bundles σ)[i]? = some (some (orch (bundles.get ⟨i, hi⟩))) := by
  constructor
  · unfold flowRunAsync
    rw [gatherFill_length, List.length_map]
  · intro i hi
    unfold flowRunAsync
    rw [gatherFill_getElem? _ _ _ (hcov i hi) (by rw [List.length_map]; exact hi)]
    congr 1
    rw [List.getElem?_map, List.getElem?_eq_getElem hi]
    rfl

/-- Witness for the amended C4 at a concrete batch where bundle 5 fails with
a 429 carrier: its slot holds the carrier, the sibling slot holds its value,
and the returned array has full length. -/
theorem claim_C4_flow_failure_isolation_witness :
    (flowRunAsync (fun n => if n = 5 then Except.error 429 else Except.ok (2 * n) :
        ℕ → Except ℕ ℕ) [4, 5, 6] [2, 0, 1]).length = 3 ∧
    (flowRunAsync (fun n => if n = 5 then Except.error 429 else Except.ok (2 * n) :
        ℕ → Except ℕ ℕ) [4, 5, 6] [2, 0, 1])[1]? = some (some (Except.error 429)) ∧
    (flowRunAsync (fun n => if n = 5 then Except.error 429 else Except.ok (2 * n) :
        ℕ → Except ℕ ℕ) [4, 5, 6] [2, 0, 1])[0]? = some (some (Except.ok 8)) := by
  have h := claim_C4_flow_failure_isolation
    (fun n => if n = 5 then Except.error 429 else Except.ok (2 * n) : ℕ → Except ℕ ℕ)
    [4, 5, 6] [2, 0, 1] (by decide)
  exact ⟨h.1, h.2 1 (by decide), h.2 0 (by decide)⟩

/-- C4 counterexample: the node-level batch executor
(`ThrottledParallelBatchNode._exec`) gathers without `return_exceptions`, so
when item 2 of three fails, the whole `_exec` call raises that exception
instead of returning a result array with a carrier in slot 1. -/
theorem claim_C4_counterexample :
    nodeExec (fun n => if n = 2 then Except.error 429 else Except.ok n :
        ℕ → Except ℕ ℕ) [1, 2, 3] [0, 1, 2] = Except.error 429 ∧
    (nodeExec (fun n => if n = 2 then Except.error 429 else Except.ok n :
        ℕ → Except ℕ ℕ) [1, 2, 3] [0, 1, 2]).isOk = false :=
  ⟨rfl, rfl⟩

theorem filterMap_toOption_ok {ε β : Type} (l : List (Except ε β))
    (h : ∀ x ∈ l, x.isOk = true) :
    (l.filterMap Except.toOption).length = l.length ∧
    ∀ i (hi : i < l.length),
      (l.filterMap Except.toOption)[i]? = (l.get ⟨i, hi⟩).toOption := by
  induction l with
  | nil => exact ⟨rfl, fun i hi => absurd hi (by simp)⟩
  | cons a l ih =>
    obtain ⟨v, rfl⟩ : ∃ v, a = Except.ok v := by
      cases a with
      | ok v => exact ⟨v, rfl⟩
      | error e =>
        have ha := h _ (List.mem_cons_self ..)
        simp [Except.isOk, Except.toBool] at ha
    have ih' := ih (fun x hx => h x (List.mem_cons_of_mem _ hx))
    have hcons : (Except.ok v :: l).filterMap Except.toOption
        = v :: l.filterMap Except.toOption := by
      rw [List.filterMap_cons]
      rfl
    constructor
    · rw [hcons, List.length_cons, List.length_cons, ih'.1]
    · intro i hi
      match i with
      | 0 => rw [hcons]; simp [Except.toOption]
      | Nat.succ i =>
        rw [hcons]
        have hi' : i < l.length := by simpa using hi
        have := ih'.2 i hi'
        simpa using this

/-- C9: the batch executor returns one result per input item, at that item's
index, for every completion schedule of the concurrent tasks (order of
completion does not matter), and an empty batch yields the empty array.
Stated for the node executor on an all-success batch (on failure it raises
instead of returning an array, see C4). -/
theorem claim_C9_results_ordered {α β ε : Type} (f : α → Except ε β)
    (items : List α) (σ σ' : List ℕ)
    (hok : ∀ x ∈ items, (f x).isOk = true) :
    nodeExec f ([] : List α) σ' = Except.ok ([] : List β) ∧
    nodeExec f items σ = Except.ok ((items.map f).filterMap Except.toOption) ∧
    ((items.map f).filterMap Except.toOption).length = items.length ∧
    ∀ i (hi : i < items.length),
      ((items.map f).filterMap Except.toOption)[i]? = (f (items.get ⟨i, hi⟩)).toOption := by
  have hmap : ∀ y ∈ items.map f, y.isOk = true := by
    intro y hy
    obtain ⟨x, hx, rfl⟩ := List.mem_map.mp hy
    exact hok x hx
  have hfm := filterMap_toOption_ok (items.map f) hmap
  refine ⟨rfl, ?_, hfm.1.trans (List.length_map ..), ?_⟩
  · unfold nodeExec
    by_cases he : items.isEmpty
    · rw [if_pos he]
      have hnil : items = [] := List.isEmpty_iff.mp he
      subst hnil
      rfl
    · rw [if_neg he]
      unfold gatherExc
      have hnone : firstError (items.map f) σ = none := by
        unfold firstError
        rw [List.findSome?_eq_none_iff]
        intro j _
        unfold taskError
        cases hjm : (items.map f)[j]? with
        | none => rfl
        | some r =>
          cases r with
          | ok v => rfl
          | error e =>
            have hmem : Except.error e ∈ items.map f := List.getElem?_mem hjm
            have hbad := hmap _ hmem
            simp [Except.isOk, Except.toBool] at hbad
      rw [hnone]
  · intro i hi
    have hi' : i < (items.map f).length := by rw [List.length_map]; exact hi
    rw [hfm.2 i hi']
    congr 1
    simp

/-- Witness for C9 on a concrete all-success batch and a scrambled
completion schedule. -/
theorem claim_C9_results_ordered_witness :
    nodeExec (fun n => Except.ok (n + 1) : ℕ → Except ℕ ℕ) ([] : List ℕ) [0]
      = Except.ok [] ∧
    nodeExec (fun n => Except.ok (n + 1) : ℕ → Except ℕ ℕ) [3, 4, 5] [2, 0, 1]
      = Except.ok (([3, 4, 5].map (fun n => Except.ok (n + 1) : ℕ → Except ℕ ℕ)).filterMap
          Except.toOption) := by
  have h := claim_C9_results_ordered (fun n => Except.ok (n + 1) : ℕ → Except ℕ ℕ)
    [3, 4, 5] [2, 0, 1] [0] (by decide)
  exact ⟨h.1, h.2.1⟩

/-- Witness for C8 at a one-limiter heap (cap 3, one permit outstanding)
with one swap to capacity 2. -/
theorem claim_C8_release_routes_to_bound_limiter_witness :
    (scopedExit (List.foldl swapLimiter (scopedEnter ⟨[3], [1], 0⟩).1 [2])
        (scopedEnter ⟨[3], [1], 0⟩).2).outstanding.getD (scopedEnter ⟨[3], [1], 0⟩).2 0
      = (⟨[3], [1], 0⟩ : ScopedHeap).outstanding.getD (scopedEnter ⟨[3], [1], 0⟩).2 0 ∧
    (List.foldl swapLimiter (scopedEnter ⟨[3], [1], 0⟩).1 [2]).cur
      ≠ (scopedEnter ⟨[3], [1], 0⟩).2 :=
  ⟨(claim_C8_release_routes_to_bound_limiter ⟨[3], [1], 0⟩ [2]
      (by decide) (by decide)).1,
   (claim_C8_release_routes_to_bound_limiter ⟨[3], [1], 0⟩ [2]
      (by decide) (by decide)).2.2 (by decide)⟩

/-- Witness for the amended C7: a concrete invalid cap is rejected. -/
theorem claim_C7_ratelimiter_validation_witness :
    (rateLimiterInit 0 none 60).isOk = false :=
  (claim_C7_ratelimiter_validation 0 none 60).mpr (Or.inl (by decide))

theorem eps_pos : 0 < eps := by
  unfold eps
  norm_num

theorem evict_split (W now : ℚ) (ts : List ℚ) :
    ∃ pre, ts = pre ++ evict W now ts ∧ ∀ x ∈ pre, W < now - x := by
  refine ⟨ts.takeWhile (fun u => decide (W < now - u)), ?_, ?_⟩
  · exact (List.takeWhile_append_dropWhile ..).symm
  · intro x hx
    have hp := List.mem_takeWhile_imp hx
    simpa using hp

theorem evict_length_le (W now : ℚ) (ts : List ℚ) :
    (evict W now ts).length ≤ ts.length :=
  (List.dropWhile_sublist _).length_le

theorem evict_subset {W now : ℚ} {ts : List ℚ} :
    ∀ x ∈ evict W now ts, x ∈ ts :=
  fun _ hx => (List.dropWhile_sublist _).subset hx

theorem evict_sorted {W now : ℚ} {ts : List ℚ} (h : ts.Chain' (· ≤ ·)) :
    (evict W now ts).Chain' (· ≤ ·) :=
  h.suffix (List.dropWhile_suffix _)

theorem evict_head_le {W now : ℚ} {ts : List ℚ} {y : ℚ} {ys : List ℚ}
    (h : evict W now ts = y :: ys) : now - y ≤ W := by
  induction ts with
  | nil => exact absurd h (by simp [evict])
  | cons a l ih =>
    by_cases hp : W < now - a
    · apply ih
      rw [← h]
      show evict W now l = evict W now (a :: l)
      unfold evict
      rw [List.dropWhile_cons_of_pos (by simpa using hp)]
    · have hstop : evict W now (a :: l) = a :: l := by
        unfold evict
        rw [List.dropWhile_cons_of_neg (by simpa using hp)]
      rw [hstop] at h
      have hy : y = a := by
        have hh := congrArg List.head? h
        simpa using hh.symm
      subst hy
      exact le_of_not_lt hp

theorem evict_cons_of_expired {W now : ℚ} {y : ℚ} {ys : List ℚ}
    (h : W < now - y) : evict W now (y :: ys) = evict W now ys := by
  unfold evict
  rw [List.dropWhile_cons_of_pos (by simpa using h)]

/-- Unfolding of `acquireWindow` on the sleep path. -/
theorem acquireWindow_eq_sleep {N : ℕ} {W : ℚ} {dq : List ℚ} {now : ℚ}
    (d2 d3 : ℚ) {y : ℚ} {ys : List ℚ} (hts1 : evict W now dq = y :: ys)
    (hlen : N ≤ (y :: ys).length) (hst : 0 < W - (now - y) + eps) :
    acquireWindow N W dq now d2 d3 =
      (evict W (now + (W - (now - y) + eps) + d2) (y :: ys)
          ++ [now + (W - (now - y) + eps) + d2 + d3],
        now + (W - (now - y) + eps) + d2 + d3) := by
  unfold acquireWindow
  rw [hts1]
  rw [if_pos hlen]
  simp only [List.head!_cons]
  rw [if_pos hst]

/-- Unfolding of `acquireWindow` on the fast path (window not full). -/
theorem acquireWindow_eq_fast {N : ℕ} {W : ℚ} {dq : List ℚ} {now : ℚ} (d2 d3 : ℚ)
    (h : ¬ N ≤ (evict W now dq).length) :
    acquireWindow N W dq now d2 d3 = (evict W now dq ++ [now + d3], now + d3) := by
  unfold acquireWindow
  rw [if_neg h]

/-- One acquisition preserves the window invariant and moves time forward. -/
theorem acquireWindow_inv {N : ℕ} {W : ℚ} {hist dq : List ℚ} {t : ℚ}
    (hN : 1 ≤ N) (inv : WinInv N W hist dq t) (now d2 d3 : ℚ)
    (hnow : t ≤ now) (hd2 : 0 ≤ d2) (hd3 : 0 ≤ d3) :
    WinInv N W (hist ++ [(acquireWindow N W dq now d2 d3).2])
      (acquireWindow N W dq now d2 d3).1 (acquireWindow N W dq now d2 d3).2 ∧
    now ≤ (acquireWindow N W dq now d2 d3).2 := by
  obtain ⟨pre1, hpre1, hout1⟩ := evict_split W now dq
  have hts1_sorted : (evict W now dq).Chain' (· ≤ ·) := evict_sorted inv.sorted
  have hts1_bdd : ∀ x ∈ evict W now dq, x ≤ now :=
    fun x hx => le_trans (inv.bounded x (evict_subset x hx)) hnow
  have hts1_len : (evict W now dq).length ≤ N :=
    le_trans (evict_length_le W now dq) inv.len_le
  obtain ⟨pre0, hpre0, hout0⟩ := inv.split
  by_cases hfull : N ≤ (evict W now dq).length
  · -- window full: sleep path
    obtain ⟨y, ys, hts1⟩ : ∃ y ys, evict W now dq = y :: ys := by
      cases hcs : evict W now dq with
      | nil => rw [hcs] at hfull; simp at hfull; omega
      | cons y ys => exact ⟨y, ys, rfl⟩
    have hy_win : now - y ≤ W := evict_head_le hts1
    have hst : 0 < W - (now - y) + eps := by
      have := eps_pos
      linarith
    rw [hts1] at hfull hts1_sorted hts1_bdd hts1_len
    have heq := acquireWindow_eq_sleep d2 d3 hts1 hfull hst
    rw [heq]
    set wake := now + (W - (now - y) + eps) + d2 with hwake
    set ret := wake + d3 with hret
    have hnow_wake : now ≤ wake := by
      have := eps_pos
      rw [hwake]
      linarith
    have hwake_ret : wake ≤ ret := by
      rw [hret]
      linarith
    have hy_exp : W < wake - y := by
      have := eps_pos
      rw [hwake]
      linarith
    have hts2_eq : evict W wake (y :: ys) = evict W wake ys :=
      evict_cons_of_expired hy_exp
    obtain ⟨pre2, hpre2, hout2⟩ := evict_split W wake (y :: ys)
    have hts2_len : (evict W wake (y :: ys)).length ≤ ys.length := by
      rw [hts2_eq]
      exact evict_length_le W wake ys
    have hts2_sub : ∀ x ∈ evict W wake (y :: ys), x ∈ y :: ys := evict_subset
    have hts2_bdd : ∀ x ∈ evict W wake (y :: ys), x ≤ ret := by
      intro x hx
      have hx1 : x ∈ y :: ys := hts2_sub x hx
      have hx2 : x ≤ now := hts1_bdd x hx1
      linarith
    have hsplit2 : hist ++ [ret]
        = (pre0 ++ pre1 ++ pre2) ++ (evict W wake (y :: ys) ++ [ret]) := by
      rw [hpre0, hpre1, hts1]
      conv_lhs => rw [hpre2]
      simp [List.append_assoc]
    constructor
    · refine ⟨?_, ?_, ?_, ?_⟩
      · rw [List.chain'_append]
        refine ⟨evict_sorted hts1_sorted, List.chain'_singleton _, ?_⟩
        intro x hx z hz
        have hx' : x ∈ evict W wake (y :: ys) := List.mem_of_mem_getLast? hx
        have hz' : ret = z := by simpa using hz
        subst hz'
        exact hts2_bdd x hx'
      · intro x hx
        rcases List.mem_append.mp hx with hx | hx
        · exact hts2_bdd x hx
        · simp at hx
          simp [hx]
      · rw [List.length_append]
        simp only [List.length_cons] at hfull hts1_len
        simp only [List.length_singleton]
        omega
      · refine ⟨pre0 ++ pre1 ++ pre2, hsplit2, ?_⟩
        intro x hx
        rcases List.mem_append.mp hx with hx' | hx
        · rcases List.mem_append.mp hx' with hx | hx
          · have := hout0 x hx
            linarith
          · have := hout1 x hx
            linarith
        · have := hout2 x hx
          linarith
    · show now ≤ ret
      linarith
  · -- fast path
    have heq := acquireWindow_eq_fast d2 d3 hfull
    rw [heq]
    dsimp only
    have hret : now ≤ now + d3 := by linarith
    constructor
    · refine ⟨?_, ?_, ?_, ?_⟩
      · rw [List.chain'_append]
        refine ⟨hts1_sorted, List.chain'_singleton _, ?_⟩
        intro x hx z hz
        have hx' : x ∈ evict W now dq := List.mem_of_mem_getLast? hx
        have hz' : now + d3 = z := by simpa using hz
        subst hz'
        exact le_trans (hts1_bdd x hx') hret
      · intro x hx
        rcases List.mem_append.mp hx with hx | hx
        · exact le_trans (hts1_bdd x hx) hret
        · simp at hx
          simp [hx]
      · rw [List.length_append]
        simp only [List.length_singleton]
        omega
      · refine ⟨pre0 ++ pre1, ?_, ?_⟩
        · conv_lhs => rw [hpre0, hpre1]
          simp [List.append_assoc]
        · intro x hx
          rcases List.mem_append.mp hx with hx | hx
          · have := hout0 x hx
            linarith
          · have := hout1 x hx
            linarith
    · exact hret

/-- The window invariant is preserved along any nonnegative-delay trace. -/
theorem runAcquires_inv (N : ℕ) (W : ℚ) (hN : 1 ≤ N)
    (trace : List (ℚ × ℚ × ℚ)) :
    ∀ hist dq t, WinInv N W hist dq t → delaysNonneg trace →
      WinInv N W (runAcquires N W hist dq t trace).1
        (runAcquires N W hist dq t trace).2.1
        (runAcquires N W hist dq t trace).2.2 := by
  induction trace with
  | nil =>
    intro hist dq t inv _
    exact inv
  | cons c rest ih =>
    intro hist dq t inv hd
    have hc := hd c (List.mem_cons_self ..)
    have hrest : delaysNonneg rest := fun x hx => hd x (List.mem_cons_of_mem _ hx)
    have hnow : t ≤ t + c.1 := by
      have := hc.1
      linarith
    have hstep := acquireWindow_inv hN inv (t + c.1) c.2.1 c.2.2 hnow hc.2.1 hc.2.2
    simp only [runAcquires]
    exact ih _ _ _ hstep.1 hrest

/-- A window invariant bounds the in-window count of the whole history. -/
theorem WinInv.countWindow_le {N : ℕ} {W : ℚ} {hist dq : List ℚ} {t : ℚ}
    (inv : WinInv N W hist dq t) : countWindow t W hist ≤ N := by
  obtain ⟨pre, hsplit, hpre⟩ := inv.split
  rw [hsplit]
  unfold countWindow
  rw [List.filter_append, List.length_append]
  have h1 : (pre.filter fun x => decide (t - x ≤ W)).length = 0 := by
    rw [List.length_eq_zero, List.filter_eq_nil_iff]
    intro a ha
    simp only [decide_eq_true_eq]
    exact not_le.mpr (hpre a ha)
  have h2 : (dq.filter fun x => decide (t - x ≤ W)).length ≤ dq.length :=
    List.length_filter_le ..
  have h3 : dq.length ≤ N := inv.len_le
  omega

/-- C1: for a limiter with `max_per_window = N ≥ 1` and `window_seconds = W > 0`,
after any sequence of acquisitions (arbitrary nonnegative arrival gaps and
scheduling delays, sleeps lasting at least their requested duration), the
number of completed-acquisition timestamps lying within the trailing window
of length `W` at the instant the last `acquire()` returned is at most `N`.
Every prefix of a valid trace is itself a valid trace, so this bounds the
count at the moment every `acquire()` call returns. -/
theorem claim_C1_sliding_window_bound (N : ℕ) (W : ℚ)
    (trace : List (ℚ × ℚ × ℚ)) (hN : 1 ≤ N) (_hW : 0 < W)
    (hd : delaysNonneg trace) :
    countWindow (runAcquires N W [] [] 0 trace).2.2 W
      (runAcquires N W [] [] 0 trace).1 ≤ N := by
  have inv0 : WinInv N W [] [] 0 :=
    ⟨List.chain'_nil, by simp, by simp, ⟨[], rfl, by simp⟩⟩
  have inv := runAcquires_inv N W hN trace [] [] 0 inv0 hd
  exact inv.countWindow_le

/-- Witness for C1: `max_per_window = 1`, `window_seconds = 60`, three
immediate acquisitions; the second and third are forced through the
window sleep and the in-window count at the last return stays at 1. -/
theorem claim_C1_sliding_window_bound_witness :
    countWindow (runAcquires 1 60 [] [] 0 [(0, 0, 0), (0, 0, 0), (0, 0, 0)]).2.2 60
      (runAcquires 1 60 [] [] 0 [(0, 0, 0), (0, 0, 0), (0, 0, 0)]).1 ≤ 1 :=
  claim_C1_sliding_window_bound 1 60 [(0, 0, 0), (0, 0, 0), (0, 0, 0)]
    (by decide) (by decide) (by unfold delaysNonneg; decide)

end ThrottledDevelopment
